import Mathlib

/-!
# Verification of the a2-blockchain ledger engine

A shallow embedding of the TypeScript ledger engine
(`src/core/Transaction.ts`, `src/core/MerkleTree.ts`, `src/core/Block.ts`,
`src/core/ProofOfWork.ts`, `src/core/TransactionValidator.ts`,
`src/core/Blockchain.ts`) and proofs about it.

Modelling conventions:

* SHA-256 is modelled symbolically: the codomain of every hash computation is
  the inductive type `HV`, whose constructors record exactly the data that the
  source feeds into `createHash("sha256")` (via `JSON.stringify`, which is
  injective on the structured records involved).  Distinct constructor
  applications yield distinct values, which models collision-freeness of the
  hash; the all-zero 64-hex-character string literal `"0".repeat(64)` used by
  the source as genesis previous-hash and empty-Merkle placeholder is the
  dedicated constructor `HV.zeros64`.
* Whether a hash string has at least `difficulty` leading zero hex characters
  (`hash.startsWith("0".repeat(difficulty))`) depends on the bit-level output
  of SHA-256 and is therefore kept abstract: every definition that needs it
  takes a predicate `pow : HV → Nat → Bool` as a parameter.
* JavaScript numbers are modelled as `Int` (indices, timestamps, amounts) or
  `Nat` (nonces, difficulties, array indices); the one genuine division, the
  difficulty-adjustment ratio, is modelled exactly in `ℚ`.
* The TypeScript `Block` and `Transaction` classes compute their `hash` /
  `merkleRoot` / `id` fields in the constructor from the other fields, and all
  fields are `readonly`; hence the stored digest always equals the recomputed
  one.  The embedding therefore represents a block or transaction by its
  mutable-free payload and computes the digests by functions (`Block.hash`,
  `Tx.id`, `Block.merkleRoot`); the source's `hash !== recompute` branches are
  consequently never taken, faithfully to the running system.
* The SQLite persistence layer is out of scope per the specification; its
  calls (`saveBlock`, `markUTXOSpent`, ...) always succeed and are omitted.
  Wall-clock reads (`Date.now()`) become explicit `now` parameters.
-/

/-- Symbolic value of a SHA-256 hex digest.  Each constructor records the
payload the source hashes, so equality of symbolic hashes coincides with
equality of hashed payloads (the collision-free model of SHA-256). -/
inductive HV where
  /-- The literal string `"0".repeat(64)`. -/
  | zeros64 : HV
  /-- Empty JSON list. -/
  | hnil : HV
  /-- A natural number component. -/
  | hnat : Nat → HV
  /-- An integer component. -/
  | hint : Int → HV
  /-- A string component. -/
  | hstr : String → HV
  /-- Pairing of components. -/
  | hpair : HV → HV → HV
  /-- `Transaction.calculateId`: digest of `{timestamp, inputs, outputs}`. -/
  | tagTx : HV → HV
  /-- `Block.calculateHash`: digest of
  `{index, timestamp, previousHash, merkleRoot, nonce, difficulty}`. -/
  | tagBlock : HV → HV
  /-- `MerkleTree.hash` applied to a leaf datum. -/
  | tagLeaf : HV → HV
  /-- `MerkleTree.combineHashes`: digest of the two children concatenated. -/
  | tagNode : HV → HV → HV
deriving DecidableEq, Repr

/-- Encode a list of already-encoded components as a single hash payload. -/
def hlist : List HV → HV
  | [] => HV.hnil
  | x :: xs => HV.hpair x (hlist xs)

/-- `TxInput` (src/core/Transaction.ts): reference to a prior transaction's
output by transaction id and output index.  The optional `signature` field is
never set by the core and is omitted. -/
structure TxInput where
  txId : HV
  outputIndex : Nat
deriving DecidableEq, Repr

/-- `TxOutput` (src/core/Transaction.ts): an (address, amount) pair. -/
structure TxOutput where
  address : String
  amount : Int
deriving DecidableEq, Repr

/-- The payload of a `Transaction` (src/core/Transaction.ts); the `id` field
is computed from these by the constructor and is the function `Tx.id`. -/
structure Tx where
  timestamp : Int
  inputs : List TxInput
  outputs : List TxOutput
deriving DecidableEq, Repr

namespace Tx

/-- `Transaction.calculateId`: SHA-256 of the JSON of
`{timestamp, inputs, outputs}`. -/
def id (t : Tx) : HV :=
  HV.tagTx (HV.hpair (HV.hint t.timestamp)
    (HV.hpair (hlist (t.inputs.map fun i => HV.hpair i.txId (HV.hnat i.outputIndex)))
      (hlist (t.outputs.map fun o => HV.hpair (HV.hstr o.address) (HV.hint o.amount)))))

/-- `Transaction.getTotalOutputAmount`. -/
def getTotalOutputAmount (t : Tx) : Int :=
  t.outputs.foldl (fun sum o => sum + o.amount) 0

/-- `Transaction.isValid`: not (no inputs and no outputs), all output amounts
positive, and the id matches its recomputation (the last check holds by
construction in the embedding, see the header comment). -/
def isValid (t : Tx) : Bool :=
  !(t.inputs.isEmpty && t.outputs.isEmpty) && t.outputs.all (fun o => 0 < o.amount)

/-- `Transaction.createCoinbase`: no inputs, a single reward output.  The
source defaults the timestamp to `Date.now()`; it is explicit here. -/
def createCoinbase (minerAddress : String) (amount : Int) (now : Int) : Tx :=
  { timestamp := now, inputs := [], outputs := [{ address := minerAddress, amount := amount }] }

end Tx

namespace MerkleTree

/-- `MerkleTree.hash` of a leaf datum. -/
def leafHash (x : HV) : HV := HV.tagLeaf x

/-- `MerkleTree.combineHashes`: hash of the concatenation of two child
digests. -/
def combineHashes (l r : HV) : HV := HV.tagNode l r

/-- One level of `MerkleTree.buildTree`'s pairing loop: combine adjacent
nodes left to right, duplicating the last node when the count is odd. -/
def pairUp : List HV → List HV
  | [] => []
  | [x] => [combineHashes x x]
  | x :: y :: rest => combineHashes x y :: pairUp rest

theorem pairUp_length_lt : ∀ (l : List HV), 2 ≤ l.length → (pairUp l).length < l.length
  | [], h => absurd h (by simp)
  | [_], h => absurd h (by simp)
  | [_, _], _ => by simp [pairUp]
  | [_, _, _], _ => by simp [pairUp]
  | _ :: _ :: z :: w :: rest, _ => by
    have ih := pairUp_length_lt (z :: w :: rest) (by simp)
    simp only [pairUp, List.length_cons] at ih ⊢
    omega

/-- `MerkleTree.buildTree` with an explicit recursion-depth budget, so that
the kernel can evaluate it: each pairing level strictly shrinks a list of
length ≥ 2 (`pairUp_length_lt`), so a budget of the initial length always
suffices and the budget-exhausted case is unreachable
(`buildTreeAux_fuel_irrelevant`). -/
def buildTreeAux : Nat → List HV → HV
  | _, [] => HV.zeros64
  | _, [x] => x
  | 0, x :: _ :: _ => x
  | fuel + 1, x :: y :: rest => buildTreeAux fuel (pairUp (x :: y :: rest))

theorem buildTreeAux_fuel_irrelevant : ∀ (f₁ f₂ : Nat) (l : List HV),
    l.length ≤ f₁ → l.length ≤ f₂ → buildTreeAux f₁ l = buildTreeAux f₂ l
  | f₁, f₂, [], _, _ => by cases f₁ <;> cases f₂ <;> rfl
  | f₁, f₂, [_], _, _ => by cases f₁ <;> cases f₂ <;> rfl
  | f₁ + 1, f₂ + 1, x :: y :: rest, h₁, h₂ => by
    have hlt := pairUp_length_lt (x :: y :: rest) (by simp)
    simp only [buildTreeAux]
    exact buildTreeAux_fuel_irrelevant f₁ f₂ _ (by omega) (by omega)

/-- `MerkleTree.buildTree`: reduce a level to its parent level until a single
node remains.  The source throws on an empty list (its constructor rejects
empty data); the `[]` case is an arbitrary total-function value and is never
reached from `construct`. -/
def buildTree (nodes : List HV) : HV :=
  buildTreeAux nodes.length nodes

/-- The `MerkleTree` constructor followed by `getRootHash`: hash every leaf
datum, then build the tree (requires nonempty data; the source throws
otherwise). -/
def construct (data : List HV) : HV :=
  buildTree (data.map leafHash)

/-- `MerkleTree.fromTransactionIds`: an empty id list is replaced by the
single placeholder leaf `"0".repeat(64)`. -/
def fromTransactionIds (transactionIds : List HV) : HV :=
  if transactionIds.isEmpty then construct [HV.zeros64]
  else construct transactionIds

end MerkleTree

/-- The payload of a `Block` (src/core/Block.ts); `merkleRoot` and `hash` are
computed from these by the constructor and are the functions `Block.merkleRoot`
and `Block.hash`. -/
structure Block where
  index : Int
  timestamp : Int
  transactions : List Tx
  previousHash : HV
  nonce : Nat
  difficulty : Nat
deriving DecidableEq, Repr

instance : Inhabited Block :=
  ⟨{ index := 0, timestamp := 0, transactions := [], previousHash := HV.zeros64,
     nonce := 0, difficulty := 0 }⟩

namespace Block

/-- `Block.calculateMerkleRoot`: the all-zero placeholder for an empty block,
else the Merkle root of the transaction ids. -/
def merkleRoot (b : Block) : HV :=
  if b.transactions.isEmpty then HV.zeros64
  else MerkleTree.fromTransactionIds (b.transactions.map Tx.id)

/-- `Block.calculateHash`: SHA-256 of the JSON of
`{index, timestamp, previousHash, merkleRoot, nonce, difficulty}`. -/
def hash (b : Block) : HV :=
  HV.tagBlock (HV.hpair (HV.hint b.index) (HV.hpair (HV.hint b.timestamp)
    (HV.hpair b.previousHash (HV.hpair b.merkleRoot
      (HV.hpair (HV.hnat b.nonce) (HV.hnat b.difficulty))))))

/-- `Block.hasValidProofOfWork`: the block hash starts with `difficulty` zero
hex characters; `pow` abstracts that bit-level test (see header comment). -/
def hasValidProofOfWork (pow : HV → Nat → Bool) (b : Block) : Bool :=
  pow b.hash b.difficulty

/-- `Block.isValid`: hash and Merkle-root recomputation checks (identically
true in the embedding, see header comment), validity of every transaction,
and the difficulty target test on the block's own hash. -/
def isValid (pow : HV → Nat → Bool) (b : Block) : Bool :=
  b.transactions.all Tx.isValid && hasValidProofOfWork pow b

/-- `Block.isValidSuccessor`: sequential index, previous-hash linkage, and a
strictly later timestamp. -/
def isValidSuccessor (b previousBlock : Block) : Bool :=
  b.index = previousBlock.index + 1 &&
    b.previousHash = previousBlock.hash &&
    previousBlock.timestamp < b.timestamp

/-- `Block.incrementNonce`: a new block value with the nonce incremented and
every other field (timestamp included) unchanged. -/
def incrementNonce (b : Block) : Block :=
  { b with nonce := b.nonce + 1 }

/-- `Block.createGenesis`: index 0, all-zero previous hash, nonce 0,
difficulty 1; with a genesis message the block carries the dummy coinbase
`createCoinbase("genesis", 0)`, otherwise no transactions.  The source
timestamps the block (and the dummy coinbase) with `Date.now()`, explicit
here as `now`. -/
def createGenesis (genesisMessage : Option String) (now : Int) : Block :=
  { index := 0, timestamp := now,
    transactions := match genesisMessage with
      | some _ => [Tx.createCoinbase "genesis" 0 now]
      | none => [],
    previousHash := HV.zeros64, nonce := 0, difficulty := 1 }

end Block

namespace ProofOfWork

/-- `DifficultyConfig` (src/core/ProofOfWork.ts). -/
structure DifficultyConfig where
  targetBlockTime : Int
  adjustmentInterval : Nat
  maxAdjustment : ℚ
deriving DecidableEq, Repr

/-- The constructor defaults: 10 s target, adjust every 5 blocks, 4x cap.
`Blockchain` always builds its engine with these defaults. -/
def defaultConfig : DifficultyConfig :=
  { targetBlockTime := 10000, adjustmentInterval := 5, maxAdjustment := 4 }

/-- `ProofOfWork.calculateNextDifficulty`.  The ratio arithmetic is modelled
exactly in `ℚ` (the source computes in IEEE doubles; all quantities of
interest are far from the rounding boundaries of the three thresholds). -/
def calculateNextDifficulty (cfg : DifficultyConfig) (recentBlocks : List Block)
    (currentDifficulty : Nat) : Nat :=
  if recentBlocks.length < 2 then currentDifficulty
  else
    let latestBlock := recentBlocks.getLastD default
    if latestBlock.index % (cfg.adjustmentInterval : Int) ≠ 0 then currentDifficulty
    else if recentBlocks.length < cfg.adjustmentInterval then currentDifficulty
    else
      let intervalBlocks := recentBlocks.drop (recentBlocks.length - cfg.adjustmentInterval)
      let oldestBlock := intervalBlocks.headD default
      let newestBlock := intervalBlocks.getLastD default
      let actualTime : Int := newestBlock.timestamp - oldestBlock.timestamp
      let expectedTime : Int := cfg.targetBlockTime * ((cfg.adjustmentInterval : Int) - 1)
      let rq : ℚ := (actualTime : ℚ) / (expectedTime : ℚ)
      let limited : ℚ := max (1 / cfg.maxAdjustment) (min cfg.maxAdjustment rq)
      let newDifficulty : Nat :=
        if 1 < limited then max 1 (currentDifficulty - 1)
        else if limited < 1 / 2 then currentDifficulty + 2
        else if limited < 4 / 5 then currentDifficulty + 1
        else currentDifficulty
      max 1 newDifficulty

/-- `ProofOfWork.validateProofOfWork`: the difficulty-target test plus the
hash-recomputation check (the latter holds by construction here, see the
header comment). -/
def validateProofOfWork (pow : HV → Nat → Bool) (b : Block) : Bool :=
  Block.hasValidProofOfWork pow b

/-- The body of `ProofOfWork.mineBlock`'s loop.  `attempts` is
`stats.attempts`; `stop k` abstracts "the ≥ 1 s progress interval elapsed at
attempt `k` and the progress callback returned false" (the callback is only
consulted on wall-clock ticks, which the embedding leaves abstract).  The
10,000,000-attempt safety limit is the source's literal constant. -/
def mineLoop (pow : HV → Nat → Bool) (stop : Nat → Bool) :
    Nat → Block → Option Block := fun attempts currentBlock =>
  if Block.hasValidProofOfWork pow currentBlock then some currentBlock
  else
    let attempts' := attempts + 1
    let nextBlock := Block.incrementNonce currentBlock
    if stop attempts' then none
    else if 10000000 < attempts' then none
    else mineLoop pow stop attempts' nextBlock
termination_by attempts _ => 10000001 - attempts
decreasing_by simp_wf; omega

/-- `ProofOfWork.mineBlock`: start the nonce search at the candidate with
zero attempts made. -/
def mineBlock (pow : HV → Nat → Bool) (stop : Nat → Bool) (block : Block) : Option Block :=
  mineLoop pow stop 0 block

end ProofOfWork

/-- `UTXO` (src/core/Transaction.ts). -/
structure UTXO where
  txId : HV
  outputIndex : Nat
  address : String
  amount : Int
  spent : Bool
  spentInTx : Option HV
deriving DecidableEq, Repr

/-- `UTXOSet` (src/core/Transaction.ts): a JS `Map` keyed by the string
`"txId:outputIndex"`, modelled as an insertion-ordered association list keyed
by the pair (the string key is injective in the pair: transaction ids are
64-hex strings without a colon). -/
abbrev UTXOSet := List ((HV × Nat) × UTXO)

namespace UTXOSet

/-- `Map.get`. -/
def get (m : UTXOSet) (k : HV × Nat) : Option UTXO :=
  (m.find? fun e => e.1 = k).map (·.2)

/-- `Map.set`: replace in place when the key is present, else append. -/
def set (m : UTXOSet) (k : HV × Nat) (v : UTXO) : UTXOSet :=
  if m.any fun e => e.1 = k then m.map fun e => if e.1 = k then (k, v) else e
  else m ++ [(k, v)]

/-- `Map.delete`. -/
def erase (m : UTXOSet) (k : HV × Nat) : UTXOSet :=
  m.filter fun e => e.1 ≠ k

/-- `UTXOSet.addUTXO`: keyed by `utxo.getId()`. -/
def addUTXO (m : UTXOSet) (u : UTXO) : UTXOSet :=
  set m (u.txId, u.outputIndex) u

/-- `UTXOSet.spendUTXO`: `false` when the UTXO is absent or already spent;
otherwise mark it spent and remove it from the unspent set (the net effect on
the map is removal of the entry). -/
def spendUTXO (m : UTXOSet) (txId : HV) (outputIndex : Nat) (spentInTx : HV) :
    Bool × UTXOSet :=
  match get m (txId, outputIndex) with
  | none => (false, m)
  | some utxo =>
    if utxo.spent then (false, m)
    else
      let _ := spentInTx
      (true, erase m (txId, outputIndex))

/-- `UTXOSet.getAllUTXOs`: all values, filtered to unspent, in map order. -/
def getAllUTXOs (m : UTXOSet) : List UTXO :=
  (m.map (·.2)).filter fun u => !u.spent

/-- `UTXOSet.getUTXOsForAddress`. -/
def getUTXOsForAddress (m : UTXOSet) (address : String) : List UTXO :=
  (m.map (·.2)).filter fun u => u.address = address && !u.spent

/-- `UTXOSet.getBalance`. -/
def getBalance (m : UTXOSet) (address : String) : Int :=
  (getUTXOsForAddress m address).foldl (fun sum u => sum + u.amount) 0

/-- `UTXOSet.hasUnspentUTXO`. -/
def hasUnspentUTXO (m : UTXOSet) (txId : HV) (outputIndex : Nat) : Bool :=
  match get m (txId, outputIndex) with
  | none => false
  | some u => !u.spent

/-- `UTXOSet.canSpendTransaction`. -/
def canSpendTransaction (m : UTXOSet) (t : Tx) : Bool :=
  t.inputs.all fun i => hasUnspentUTXO m i.txId i.outputIndex

end UTXOSet

/-- The error values of `ValidationResult.errors`
(src/core/TransactionValidator.ts), each constructor carrying the data
interpolated into the source's message string. -/
inductive VErr where
  /-- "Basic transaction structure is invalid". -/
  | structureInvalid
  /-- "Coinbase transaction must have at least one output". -/
  | coinbaseNoOutput
  /-- "Duplicate input detected: txId:outputIndex". -/
  | duplicateInput (txId : HV) (outputIndex : Nat)
  /-- "Input references invalid or spent UTXO: txId:outputIndex". -/
  | invalidUTXO (txId : HV) (outputIndex : Nat)
  /-- "Insufficient balance: trying to spend X but only have Y". -/
  | insufficientBalance (trying available : Int)
  /-- "Double-spend detected: UTXO txId (outputIndex: i) already spent by
  transaction conflictingTxId". -/
  | doubleSpend (txId : HV) (outputIndex : Nat) (conflictingTxId : HV)
  /-- "Failed to add transaction to pool" (Blockchain.addTransaction). -/
  | poolAddFailed
deriving DecidableEq, Repr

/-- `ValidationResult` (src/core/TransactionValidator.ts).  No code path of
the validator ever appends a warning; the field is kept for fidelity. -/
structure ValidationResult where
  isValid : Bool
  errors : List VErr
  warnings : List VErr
deriving DecidableEq, Repr

namespace TransactionValidator

/-- The mempool of `TransactionValidator`: a JS `Map` from transaction id to
transaction, only ever populated with `(tx.id, tx)` entries; modelled as the
insertion-ordered list of its transactions. -/
abbrev Mempool := List Tx

/-- `TransactionValidator.addToMempool` (`Map.set` keyed by `tx.id`). -/
def addToMempool (mempool : Mempool) (t : Tx) : Mempool :=
  if mempool.any fun m => m.id = t.id then
    mempool.map fun m => if m.id = t.id then t else m
  else mempool ++ [t]

/-- `TransactionValidator.removeFromMempool` (`Map.delete`). -/
def removeFromMempool (mempool : Mempool) (transactionId : HV) : Mempool :=
  mempool.filter fun m => m.id ≠ transactionId

/-- The loop of `checkDuplicateInputs`: `seen` is the set of input
coordinates already scanned; one error per repeated occurrence. -/
def dupErrorsAux : List (HV × Nat) → List TxInput → List VErr
  | _, [] => []
  | seen, i :: rest =>
    let inputId := (i.txId, i.outputIndex)
    if seen.contains inputId then
      VErr.duplicateInput i.txId i.outputIndex :: dupErrorsAux (inputId :: seen) rest
    else dupErrorsAux (inputId :: seen) rest

/-- `TransactionValidator.checkDuplicateInputs`, as its error list (the
result's `isValid` is the emptiness of the list). -/
def checkDuplicateInputs (t : Tx) : List VErr :=
  dupErrorsAux [] t.inputs

/-- `TransactionValidator.checkUTXOValidity`, as its error list. -/
def checkUTXOValidity (utxoSet : UTXOSet) (t : Tx) : List VErr :=
  t.inputs.filterMap fun i =>
    if UTXOSet.hasUnspentUTXO utxoSet i.txId i.outputIndex then none
    else some (VErr.invalidUTXO i.txId i.outputIndex)

/-- `TransactionValidator.checkSufficientBalance`, as its error list: sum the
amounts of the referenced UTXOs that are found among all unspent UTXOs,
missing references contributing nothing. -/
def checkSufficientBalance (utxoSet : UTXOSet) (t : Tx) : List VErr :=
  let totalOutputValue := t.getTotalOutputAmount
  let totalInputValue := t.inputs.foldl (fun acc i =>
    match (UTXOSet.getAllUTXOs utxoSet).find? (fun u =>
        u.txId = i.txId && u.outputIndex = i.outputIndex) with
    | some utxo => acc + utxo.amount
    | none => acc) 0
  if totalInputValue < totalOutputValue then
    [VErr.insufficientBalance totalOutputValue totalInputValue]
  else []

/-- `TransactionValidator.checkMempoolConflicts`, as its error list: one error
per (input, other-mempool-transaction, conflicting-input) coincidence. -/
def checkMempoolConflicts (mempool : Mempool) (t : Tx) : List VErr :=
  t.inputs.flatMap fun i =>
    (mempool.filter fun m => m.id ≠ t.id).flatMap fun m =>
      m.inputs.filterMap fun mi =>
        if mi.txId = i.txId ∧ mi.outputIndex = i.outputIndex then
          some (VErr.doubleSpend i.txId i.outputIndex m.id)
        else none

/-- `TransactionValidator.validateTransaction`: a failed structural check
returns immediately; a coinbase (zero inputs) is settled by its output count;
otherwise the duplicate-input, UTXO-validity, balance and (when requested)
mempool-conflict checks run in order, accumulating their errors. -/
def validateTransaction (utxoSet : UTXOSet) (mempool : Mempool) (t : Tx)
    (includeMempoolCheck : Bool) : ValidationResult :=
  if !t.isValid then
    { isValid := false, errors := [VErr.structureInvalid], warnings := [] }
  else if t.inputs.isEmpty then
    if t.outputs.isEmpty then
      { isValid := false, errors := [VErr.coinbaseNoOutput], warnings := [] }
    else { isValid := true, errors := [], warnings := [] }
  else
    let dup := checkDuplicateInputs t
    let utxo := checkUTXOValidity utxoSet t
    let bal := checkSufficientBalance utxoSet t
    let mem := if includeMempoolCheck then checkMempoolConflicts mempool t else []
    { isValid := dup.isEmpty && utxo.isEmpty && bal.isEmpty && mem.isEmpty,
      errors := dup ++ utxo ++ bal ++ mem,
      warnings := [] }

end TransactionValidator

/-- The mutable state of a `Blockchain` instance (src/core/Blockchain.ts):
the chain, the authoritative UTXO set, the `TransactionPool`, and the
`TransactionValidator`'s conflict-detection mempool. -/
structure LedgerState where
  blocks : List Block
  utxoSet : UTXOSet
  transactionPool : List Tx
  mempool : TransactionValidator.Mempool
deriving DecidableEq, Repr

namespace Blockchain

/-- `Blockchain.getLatestBlock` (`blocks[blocks.length - 1]`; every state the
system constructs has a nonempty chain). -/
def getLatestBlock (s : LedgerState) : Block :=
  s.blocks.getLastD default

/-- `Blockchain.validateChronologicalOrder`: timestamp strictly after the
latest block, at most 2 hours (7 200 000 ms) ahead of the wall clock `now`,
and sequential index. -/
def validateChronologicalOrder (s : LedgerState) (b : Block) (now : Int) : Bool :=
  let previousBlock := getLatestBlock s
  (previousBlock.timestamp < b.timestamp : Bool) &&
    (b.timestamp ≤ now + 7200000 : Bool) &&
    (b.index = previousBlock.index + 1 : Bool)

/-- `Blockchain.validateBlockTransactions`: every transaction structurally
valid and spendable against the current UTXO set (each checked against the
same pre-block set). -/
def validateBlockTransactions (utxoSet : UTXOSet) (b : Block) : Bool :=
  b.transactions.all fun t => t.isValid && UTXOSet.canSpendTransaction utxoSet t

/-- `Blockchain.updateUTXOSet` restricted to one transaction: spend every
input (a failed `spendUTXO` is ignored), then add one unspent UTXO per
output. -/
def applyTxToUTXOSet (m : UTXOSet) (t : Tx) : UTXOSet :=
  let m1 := t.inputs.foldl (fun m i => (UTXOSet.spendUTXO m i.txId i.outputIndex t.id).2) m
  t.outputs.enum.foldl (fun m p =>
    UTXOSet.addUTXO m
      { txId := t.id, outputIndex := p.1, address := p.2.address,
        amount := p.2.amount, spent := false, spentInTx := none }) m1

/-- `Blockchain.updateUTXOSet`: apply every transaction of the block in
order. -/
def updateUTXOSet (m : UTXOSet) (b : Block) : UTXOSet :=
  b.transactions.foldl applyTxToUTXOSet m

/-- `Blockchain.removeTransactionsFromPool`: drop every transaction of the
block, by id, from the pool and the validator mempool. -/
def removeTransactionsFromPool (s : LedgerState) (b : Block) : LedgerState :=
  { s with
    transactionPool := s.transactionPool.filter fun t =>
      b.transactions.all fun bt => bt.id ≠ t.id,
    mempool := s.mempool.filter fun t =>
      b.transactions.all fun bt => bt.id ≠ t.id }

/-- The commit tail of `Blockchain.addBlock`, reached only when all five
stages pass: append the block, apply it to the UTXO set, evict its
transactions from the mempool (the database save always succeeds in the
model, see the header comment). -/
def commitBlock (s : LedgerState) (b : Block) : LedgerState :=
  removeTransactionsFromPool
    { s with blocks := s.blocks ++ [b], utxoSet := updateUTXOSet s.utxoSet b } b

/-- `Blockchain.addBlock`: the five-stage admission pipeline, each failing
stage returning `false` with the state untouched. -/
def addBlock (pow : HV → Nat → Bool) (s : LedgerState) (b : Block) (now : Int) :
    Bool × LedgerState :=
  if !Block.isValid pow b then (false, s)
  else if !ProofOfWork.validateProofOfWork pow b then (false, s)
  else if !Block.isValidSuccessor b (getLatestBlock s) then (false, s)
  else if !validateChronologicalOrder s b now then (false, s)
  else if !validateBlockTransactions s.utxoSet b then (false, s)
  else (true, commitBlock s b)

/-- The five admission stages of `addBlock` as one predicate. -/
def admissionStages (pow : HV → Nat → Bool) (s : LedgerState) (b : Block) (now : Int) : Bool :=
  Block.isValid pow b && ProofOfWork.validateProofOfWork pow b &&
    Block.isValidSuccessor b (getLatestBlock s) &&
    validateChronologicalOrder s b now &&
    validateBlockTransactions s.utxoSet b

/-- `Blockchain.addTransaction`: validate (with the mempool conflict check);
on success add to the pool (which rejects duplicates by id) and to the
validator mempool; a pool rejection flips the result to invalid with an extra
error. -/
def addTransaction (s : LedgerState) (t : Tx) : ValidationResult × LedgerState :=
  let vr := TransactionValidator.validateTransaction s.utxoSet s.mempool t true
  if vr.isValid then
    if t.isValid && !(s.transactionPool.any fun p => p.id = t.id) then
      (vr, { s with transactionPool := s.transactionPool ++ [t],
                    mempool := TransactionValidator.addToMempool s.mempool t })
    else
      ({ isValid := false, errors := vr.errors ++ [VErr.poolAddFailed],
         warnings := vr.warnings }, s)
  else (vr, s)

/-- The loop body of `Blockchain.validateChain` and of the block-by-block part
of `validateAlternativeChain`: from `i = 1` on, each block must be
structurally valid, have valid proof-of-work, and be a valid successor of its
actual predecessor; the first failure returns `false`. -/
def validateChainFrom (pow : HV → Nat → Bool) : Block → List Block → Bool
  | _, [] => true
  | prev, b :: rest =>
    Block.isValid pow b && ProofOfWork.validateProofOfWork pow b &&
      Block.isValidSuccessor b prev && validateChainFrom pow b rest

/-- `Blockchain.validateChain`. -/
def validateChain (pow : HV → Nat → Bool) (blocks : List Block) : Bool :=
  match blocks with
  | [] => true
  | g :: rest => validateChainFrom pow g rest

/-- `Blockchain.validateAlternativeChain`: nonempty, genesis hash equal to
the current chain's, and stages 1-3 pairwise along the alternative chain. -/
def validateAlternativeChain (pow : HV → Nat → Bool) (cur alt : List Block) : Bool :=
  match alt with
  | [] => false
  | a0 :: rest =>
    (a0.hash = (cur.headD default).hash : Bool) && validateChainFrom pow a0 rest

/-- `Blockchain.findForkPoint`: the index of the last block at which the two
chains share a hash, scanning from index 0; `-1` when even the heads differ.
(The source's indexed loop returning `i - 1` at the first mismatch and
`minLength - 1` at exhaustion is this recursion.) -/
def findForkPoint : List Block → List Block → Int
  | x :: xs, y :: ys => if x.hash = y.hash then 1 + findForkPoint xs ys else -1
  | [], _ => -1
  | _, [] => -1

/-- `Blockchain.rebuildUTXOSet` / from-scratch replay: clear, then apply every
block in order. -/
def replayUTXOSet (blocks : List Block) : UTXOSet :=
  blocks.foldl updateUTXOSet []

/-- `Blockchain.considerChainReorganization`: adopt a strictly longer
alternative chain that passes `validateAlternativeChain`; truncate to the
fork point, rebuild the UTXO set from the kept prefix, then push each
remaining alternative block (applying it to the UTXO set and evicting its
transactions from the pools — exactly the `commitBlock` step) without
re-validation.  An out-of-range fork
point would make `rollbackToBlock` throw, caught by restoring the original
blocks and rebuilding the UTXO set from them; that branch is unreachable
(`reorg_true_iff` below). -/
def considerChainReorganization (pow : HV → Nat → Bool) (s : LedgerState)
    (alt : List Block) : Bool × LedgerState :=
  if alt.length ≤ s.blocks.length then (false, s)
  else if !validateAlternativeChain pow s.blocks alt then (false, s)
  else
    let forkPoint := findForkPoint s.blocks alt
    if 0 ≤ forkPoint ∧ forkPoint < (s.blocks.length : Int) then
      let fp := forkPoint.toNat
      let keptBlocks := s.blocks.take (fp + 1)
      let rolledBack : LedgerState :=
        { s with blocks := keptBlocks, utxoSet := replayUTXOSet keptBlocks }
      (true, (alt.drop (fp + 1)).foldl commitBlock rolledBack)
    else
      (false, { s with utxoSet := replayUTXOSet s.blocks })

/-- `Blockchain.createGenesisBlock` composed with the constructor: the state
after initializing a fresh chain (no database content): the genesis block,
the UTXO set updated with it, empty pools. -/
def genesisState (genesisMessage : Option String) (now : Int) : LedgerState :=
  let g := Block.createGenesis genesisMessage now
  { blocks := [g], utxoSet := updateUTXOSet [] g, transactionPool := [], mempool := [] }

/-- The ledger states reachable from a fresh chain through the public
mutating operations (`addBlock`, `considerChainReorganization`,
`addTransaction`), each with arbitrary arguments and wall-clock readings.
`pow` (the SHA-256 difficulty-target predicate) is fixed across a run. -/
inductive Reachable (pow : HV → Nat → Bool) : LedgerState → Prop where
  | init (genesisMessage : Option String) (now : Int) :
      Reachable pow (genesisState genesisMessage now)
  | addBlockStep (s : LedgerState) (b : Block) (now : Int) :
      Reachable pow s → Reachable pow (addBlock pow s b now).2
  | reorgStep (s : LedgerState) (alt : List Block) :
      Reachable pow s → Reachable pow (considerChainReorganization pow s alt).2
  | addTxStep (s : LedgerState) (t : Tx) :
      Reachable pow s → Reachable pow (addTransaction s t).2

end Blockchain

/-! ## Shared helper lemmas -/

/-- `addBlock` in closed form: all five stages pass and the block is
committed, or the state is returned untouched. -/
theorem Blockchain.addBlock_ite (pow : HV → Nat → Bool) (s : LedgerState) (b : Block)
    (now : Int) :
    Blockchain.addBlock pow s b now =
      if Blockchain.admissionStages pow s b now then (true, Blockchain.commitBlock s b)
      else (false, s) := by
  cases h1 : Block.isValid pow b <;>
    cases h2 : ProofOfWork.validateProofOfWork pow b <;>
    cases h3 : Block.isValidSuccessor b (Blockchain.getLatestBlock s) <;>
    cases h4 : Blockchain.validateChronologicalOrder s b now <;>
    cases h5 : Blockchain.validateBlockTransactions s.utxoSet b <;>
    simp [Blockchain.addBlock, Blockchain.admissionStages, h1, h2, h3, h4, h5]

/-- The relation "`b` is a valid successor of `a`" used throughout the chain
validation code. -/
def succRel (a b : Block) : Prop := Block.isValidSuccessor b a = true

instance : DecidablePred fun p : Block × Block => succRel p.1 p.2 := by
  unfold succRel; infer_instance

/-- A passing `validateChainFrom` run makes `prev :: l` pairwise valid
successors. -/
theorem Blockchain.validateChainFrom_chain' (pow : HV → Nat → Bool) :
    ∀ (prev : Block) (l : List Block),
      Blockchain.validateChainFrom pow prev l = true → List.Chain' succRel (prev :: l)
  | _, [], _ => List.chain'_singleton _
  | prev, b :: rest, h => by
    simp only [Blockchain.validateChainFrom, Bool.and_eq_true] at h
    exact List.Chain'.cons h.1.2 (Blockchain.validateChainFrom_chain' pow b rest h.2)

/-- A passing `validateChain` run makes the whole chain pairwise valid
successors. -/
theorem Blockchain.validateChain_chain' (pow : HV → Nat → Bool) (l : List Block)
    (h : Blockchain.validateChain pow l = true) : List.Chain' succRel l := by
  match l with
  | [] => exact List.chain'_nil
  | g :: rest => exact Blockchain.validateChainFrom_chain' pow g rest h

/-- Two blocks with equal hashes agree on every header field (constructor
injectivity of the symbolic hash); the transaction lists may still differ,
since the hash binds them only through the Merkle root. -/
theorem Block.hash_inj_header {a c : Block} (h : Block.hash a = Block.hash c) :
    a.index = c.index ∧ a.timestamp = c.timestamp ∧ a.previousHash = c.previousHash ∧
      a.nonce = c.nonce ∧ a.difficulty = c.difficulty := by
  simp only [Block.hash, HV.tagBlock.injEq, HV.hpair.injEq, HV.hint.injEq,
    HV.hnat.injEq] at h
  exact ⟨h.1, h.2.1, h.2.2.1, h.2.2.2.2.1, h.2.2.2.2.2⟩

/-- Being a valid successor only depends on the predecessor through its
header, so hash-equal predecessors are interchangeable. -/
theorem Block.isValidSuccessor_congr {a c : Block} (h : Block.hash a = Block.hash c)
    (b : Block) : Block.isValidSuccessor b a = Block.isValidSuccessor b c := by
  obtain ⟨h1, h2, _, _, _⟩ := Block.hash_inj_header h
  simp only [Block.isValidSuccessor, h1, h2, h]

/-! ## Concrete scenario used by several counterexamples and witnesses -/

/-- A difficulty predicate under which every hash meets every target (a
possible world of the abstract SHA-256 leading-zero test; with real SHA-256
each individual test holds with probability `16^-difficulty`). -/
def powAll : HV → Nat → Bool := fun _ _ => true

/-- A fresh chain (no genesis message) started at wall-clock 1. -/
def sG : LedgerState := Blockchain.genesisState none 1

/-- The genesis block of `sG`. -/
def gBlock : Block := Block.createGenesis none 1

/-- A coinbase paying 50 to "alice", created at time 10. -/
def cbTx : Tx := Tx.createCoinbase "alice" 50 10

/-- Block #1: the coinbase `cbTx` on top of genesis. -/
def b1 : Block :=
  { index := 1, timestamp := 20, transactions := [cbTx], previousHash := gBlock.hash,
    nonce := 0, difficulty := 1 }

/-- A spend of the coinbase output `(cbTx.id, 0)` to "bob". -/
def t1 : Tx := { timestamp := 30, inputs := [⟨cbTx.id, 0⟩], outputs := [⟨"bob", 50⟩] }

/-- A second, distinct spend of the same coinbase output `(cbTx.id, 0)`,
to "carol". -/
def t2 : Tx := { timestamp := 31, inputs := [⟨cbTx.id, 0⟩], outputs := [⟨"carol", 50⟩] }

/-- Block #2: both conflicting spends in one block. -/
def b2 : Block :=
  { index := 2, timestamp := 40, transactions := [t1, t2], previousHash := b1.hash,
    nonce := 0, difficulty := 1 }

/-- The state after admitting `b1`. -/
def s1 : LedgerState := (Blockchain.addBlock powAll sG b1 20).2

/-- The state after additionally admitting `b2`. -/
def s2 : LedgerState := (Blockchain.addBlock powAll s1 b2 40).2

/-! ## C9 — a single-leaf Merkle tree -/

/-- C9 counterexample: building the Merkle tree on the single leaf list
`["0".repeat(64)]` yields the leaf's hash, not the leaf itself, so "a
single-leaf input is its own root (root hash equal to x itself)" is false:
the constructor hashes every datum before the tree is built. -/
theorem merkle_single_leaf_claim_false :
    MerkleTree.construct [HV.zeros64] ≠ HV.zeros64 := by
  decide

/-- C9 (amended): for a single-element leaf list `[x]`, the Merkle root is
the leaf hash `H(x)` of `x`: the single hashed leaf becomes the root with no
pairwise combination. -/
theorem merkle_single_leaf_root (x : HV) :
    MerkleTree.construct [x] = MerkleTree.leafHash x := rfl

/-! ## C2 — the five-stage admission pipeline has no partial effects -/

/-- C2: `addBlock` either passes all five ordered stages (structural
validity, proof-of-work, successor linkage, chronological bounds,
transaction admissibility) and commits — appending the block, mutating the
UTXO set and evicting mempool entries — or returns `false` with the chain,
UTXO set and both pools exactly unchanged. -/
theorem addBlock_no_partial_effects (pow : HV → Nat → Bool) (s : LedgerState)
    (b : Block) (now : Int) :
    Blockchain.addBlock pow s b now =
      if Blockchain.admissionStages pow s b now then (true, Blockchain.commitBlock s b)
      else (false, s) :=
  Blockchain.addBlock_ite pow s b now

/-! ## C4 — difficulty adjustment -/

/-- C4, the specification's difficulty-adjustment policy, written from its
words: unchanged off-checkpoint; otherwise the clamped ratio of actual to
expected window time picks, first match wins, decrease-by-1 (floor 1),
increase-by-2, increase-by-1, or unchanged. -/
def nextDifficultySpec (cfg : ProofOfWork.DifficultyConfig) (recentBlocks : List Block)
    (currentDifficulty : Nat) : Nat :=
  if recentBlocks.length < 2 ∨
      (recentBlocks.getLastD default).index % (cfg.adjustmentInterval : Int) ≠ 0 ∨
      recentBlocks.length < cfg.adjustmentInterval then
    currentDifficulty
  else
    let window := recentBlocks.drop (recentBlocks.length - cfg.adjustmentInterval)
    let actual : Int := (window.getLastD default).timestamp - (window.headD default).timestamp
    let expected : Int := cfg.targetBlockTime * ((cfg.adjustmentInterval : Int) - 1)
    let rq : ℚ := (actual : ℚ) / (expected : ℚ)
    let clamped : ℚ := max (1 / cfg.maxAdjustment) (min cfg.maxAdjustment rq)
    if 1 < clamped then max 1 (currentDifficulty - 1)
    else if clamped < 1 / 2 then currentDifficulty + 2
    else if clamped < 4 / 5 then currentDifficulty + 1
    else currentDifficulty

/-- C4: for a current difficulty of at least 1 (as the system maintains),
`calculateNextDifficulty` computes exactly the claimed policy, and its result
is always at least 1. -/
theorem calculateNextDifficulty_spec (cfg : ProofOfWork.DifficultyConfig)
    (recentBlocks : List Block) (currentDifficulty : Nat)
    (hd : 1 ≤ currentDifficulty) :
    ProofOfWork.calculateNextDifficulty cfg recentBlocks currentDifficulty =
        nextDifficultySpec cfg recentBlocks currentDifficulty ∧
      1 ≤ ProofOfWork.calculateNextDifficulty cfg recentBlocks currentDifficulty := by
  simp only [ProofOfWork.calculateNextDifficulty, nextDifficultySpec]
  by_cases hA : recentBlocks.length < 2
  · rw [if_pos hA, if_pos (Or.inl hA)]; exact ⟨rfl, hd⟩
  rw [if_neg hA]
  by_cases hB :
      (recentBlocks.getLastD default).index % (cfg.adjustmentInterval : Int) ≠ 0
  · rw [if_pos hB, if_pos (Or.inr (Or.inl hB))]; exact ⟨rfl, hd⟩
  rw [if_neg hB]
  by_cases hC : recentBlocks.length < cfg.adjustmentInterval
  · rw [if_pos hC, if_pos (Or.inr (Or.inr hC))]; exact ⟨rfl, hd⟩
  have hABC : ¬(recentBlocks.length < 2 ∨
      ((recentBlocks.getLastD default).index % (cfg.adjustmentInterval : Int) ≠ 0) ∨
      recentBlocks.length < cfg.adjustmentInterval) :=
    fun h => h.elim hA fun h2 => h2.elim hB hC
  rw [if_neg hC, if_neg hABC]
  constructor
  · split_ifs <;> omega
  · split_ifs <;> omega

/-- The five-block window used by the C4 witness: indices 1-5, timestamps
1 s apart (far below the 10 s target), ending at an adjustment checkpoint. -/
def fastWindow : List Block :=
  [{ index := 1, timestamp := 1000, transactions := [], previousHash := HV.zeros64,
     nonce := 0, difficulty := 4 },
   { index := 2, timestamp := 2000, transactions := [], previousHash := HV.zeros64,
     nonce := 0, difficulty := 4 },
   { index := 3, timestamp := 3000, transactions := [], previousHash := HV.zeros64,
     nonce := 0, difficulty := 4 },
   { index := 4, timestamp := 4000, transactions := [], previousHash := HV.zeros64,
     nonce := 0, difficulty := 4 },
   { index := 5, timestamp := 5000, transactions := [], previousHash := HV.zeros64,
     nonce := 0, difficulty := 4 }]

/-- C4 witness: on `fastWindow` the claimed policy applies (ratio 0.1 < 0.5)
and the difficulty rises by 2 from 4 to 6. -/
theorem calculateNextDifficulty_spec_witness :
    (ProofOfWork.calculateNextDifficulty ProofOfWork.defaultConfig fastWindow 4 =
        nextDifficultySpec ProofOfWork.defaultConfig fastWindow 4 ∧
      1 ≤ ProofOfWork.calculateNextDifficulty ProofOfWork.defaultConfig fastWindow 4) ∧
    ProofOfWork.calculateNextDifficulty ProofOfWork.defaultConfig fastWindow 4 = 6 :=
  ⟨calculateNextDifficulty_spec _ _ _ (by decide), by
    simp only [ProofOfWork.calculateNextDifficulty, ProofOfWork.defaultConfig, fastWindow]
    norm_num⟩

/-! ## C8 — error accumulation in validateTransaction -/

/-- For a structurally valid non-coinbase transaction, `validateTransaction`
returns exactly the concatenated errors of its four checks (helper shared by
several claims). -/
theorem TransactionValidator.validateTransaction_main_eq (utxoSet : UTXOSet)
    (mempool : TransactionValidator.Mempool) (t : Tx)
    (hstruct : t.isValid = true) (hinputs : t.inputs ≠ []) :
    TransactionValidator.validateTransaction utxoSet mempool t true =
      { isValid := (TransactionValidator.checkDuplicateInputs t).isEmpty &&
          (TransactionValidator.checkUTXOValidity utxoSet t).isEmpty &&
          (TransactionValidator.checkSufficientBalance utxoSet t).isEmpty &&
          (TransactionValidator.checkMempoolConflicts mempool t).isEmpty,
        errors := TransactionValidator.checkDuplicateInputs t ++
          TransactionValidator.checkUTXOValidity utxoSet t ++
          TransactionValidator.checkSufficientBalance utxoSet t ++
          TransactionValidator.checkMempoolConflicts mempool t,
        warnings := [] } := by
  have hne : t.inputs.isEmpty = false := by
    cases h : t.inputs with
    | nil => exact absurd h hinputs
    | cons a l => rfl
  simp [TransactionValidator.validateTransaction, hstruct, hne]

/-- C8 counterexample: a transaction that is structurally invalid (an output
amount ≤ 0) and also has a duplicate input.  `validateTransaction` stops at
the structural check and returns only that one error, so it does not
accumulate every failing reason across all of its checks: the failing
duplicate-input reason is absent. -/
theorem validateTransaction_accumulates_claim_false :
    TransactionValidator.validateTransaction [] []
        { timestamp := 1, inputs := [⟨HV.zeros64, 0⟩, ⟨HV.zeros64, 0⟩],
          outputs := [⟨"a", -1⟩] } true =
      { isValid := false, errors := [VErr.structureInvalid], warnings := [] } ∧
    TransactionValidator.checkDuplicateInputs
        { timestamp := 1, inputs := [⟨HV.zeros64, 0⟩, ⟨HV.zeros64, 0⟩],
          outputs := [⟨"a", -1⟩] } =
      [VErr.duplicateInput HV.zeros64 0] ∧
    VErr.duplicateInput HV.zeros64 0 ∉
      (TransactionValidator.validateTransaction [] []
        { timestamp := 1, inputs := [⟨HV.zeros64, 0⟩, ⟨HV.zeros64, 0⟩],
          outputs := [⟨"a", -1⟩] } true).errors := by
  decide

/-- C8 (amended): for every *structurally valid* non-coinbase transaction,
`validateTransaction` accumulates every failing reason across the
duplicate-input, unspent-UTXO, balance and mempool-conflict checks rather
than stopping at the first failure, returning the full concatenated error
list with the overall flag, which is `true` exactly when the error list is
empty.  (A structural failure short-circuits with that single error.) -/
theorem validateTransaction_accumulates (utxoSet : UTXOSet)
    (mempool : TransactionValidator.Mempool) (t : Tx)
    (hstruct : t.isValid = true) (hinputs : t.inputs ≠ []) :
    TransactionValidator.validateTransaction utxoSet mempool t true =
      { isValid := (TransactionValidator.checkDuplicateInputs t).isEmpty &&
          (TransactionValidator.checkUTXOValidity utxoSet t).isEmpty &&
          (TransactionValidator.checkSufficientBalance utxoSet t).isEmpty &&
          (TransactionValidator.checkMempoolConflicts mempool t).isEmpty,
        errors := TransactionValidator.checkDuplicateInputs t ++
          TransactionValidator.checkUTXOValidity utxoSet t ++
          TransactionValidator.checkSufficientBalance utxoSet t ++
          TransactionValidator.checkMempoolConflicts mempool t,
        warnings := [] } ∧
    ((TransactionValidator.validateTransaction utxoSet mempool t true).isValid = true ↔
      (TransactionValidator.validateTransaction utxoSet mempool t true).errors = []) := by
  have heq := TransactionValidator.validateTransaction_main_eq utxoSet mempool t hstruct hinputs
  refine ⟨heq, ?_⟩
  rw [heq]
  simp [Bool.and_eq_true, List.isEmpty_eq_true, List.append_eq_nil]
  tauto

/-- C8 witness: a well-formed transaction spending a nonexistent UTXO from an
empty ledger: the errors of all four checks are concatenated. -/
theorem validateTransaction_accumulates_witness :
    TransactionValidator.validateTransaction [] []
        { timestamp := 2, inputs := [⟨HV.zeros64, 0⟩], outputs := [⟨"a", 5⟩] } true =
      { isValid := (TransactionValidator.checkDuplicateInputs
            { timestamp := 2, inputs := [⟨HV.zeros64, 0⟩], outputs := [⟨"a", 5⟩] }).isEmpty &&
          (TransactionValidator.checkUTXOValidity []
            { timestamp := 2, inputs := [⟨HV.zeros64, 0⟩], outputs := [⟨"a", 5⟩] }).isEmpty &&
          (TransactionValidator.checkSufficientBalance []
            { timestamp := 2, inputs := [⟨HV.zeros64, 0⟩], outputs := [⟨"a", 5⟩] }).isEmpty &&
          (TransactionValidator.checkMempoolConflicts []
            { timestamp := 2, inputs := [⟨HV.zeros64, 0⟩], outputs := [⟨"a", 5⟩] }).isEmpty,
        errors := TransactionValidator.checkDuplicateInputs
            { timestamp := 2, inputs := [⟨HV.zeros64, 0⟩], outputs := [⟨"a", 5⟩] } ++
          TransactionValidator.checkUTXOValidity []
            { timestamp := 2, inputs := [⟨HV.zeros64, 0⟩], outputs := [⟨"a", 5⟩] } ++
          TransactionValidator.checkSufficientBalance []
            { timestamp := 2, inputs := [⟨HV.zeros64, 0⟩], outputs := [⟨"a", 5⟩] } ++
          TransactionValidator.checkMempoolConflicts []
            { timestamp := 2, inputs := [⟨HV.zeros64, 0⟩], outputs := [⟨"a", 5⟩] },
        warnings := [] } ∧
    ((TransactionValidator.validateTransaction [] []
        { timestamp := 2, inputs := [⟨HV.zeros64, 0⟩], outputs := [⟨"a", 5⟩] } true).isValid =
        true ↔
      (TransactionValidator.validateTransaction [] []
        { timestamp := 2, inputs := [⟨HV.zeros64, 0⟩], outputs := [⟨"a", 5⟩] } true).errors =
        []) :=
  validateTransaction_accumulates [] [] _ (by decide) (by decide)

/-! ## C1 — spent outputs are rejected; the at-most-once invariant -/

/-- C1 counterexample: a reachable ledger state (genesis, then a funding
block, then a block holding two distinct transactions that both reference the
coinbase output `(cbTx.id, 0)`) in which one output is referenced as an input
by two distinct admitted transactions — stage 5 checks each transaction of a
candidate block against the same pre-block UTXO set, so the claimed
"at most one admitted transaction per output, ever" invariant fails. -/
theorem utxo_single_spend_claim_false :
    Blockchain.Reachable powAll s2 ∧
    (Blockchain.addBlock powAll s1 b2 40).1 = true ∧
    t1 ∈ s2.blocks.flatMap Block.transactions ∧
    t2 ∈ s2.blocks.flatMap Block.transactions ∧
    t1 ≠ t2 ∧
    (⟨cbTx.id, 0⟩ : TxInput) ∈ t1.inputs ∧
    (⟨cbTx.id, 0⟩ : TxInput) ∈ t2.inputs := by
  refine ⟨?_, by decide, by decide, by decide, by decide, by decide, by decide⟩
  exact Blockchain.Reachable.addBlockStep s1 b2 40
    (Blockchain.Reachable.addBlockStep sG b1 20 (Blockchain.Reachable.init none 1))

/-- C1 (amended): once an output coordinate `(txId, idx)` is absent from the
unspent UTXO set — as it is after being consumed by a transaction of an
admitted block — every structurally valid transaction referencing it is
rejected by `validateTransaction` with an invalid/spent-UTXO error, and every
candidate block containing a transaction referencing it fails admission
(stage 5 rejects, so `addBlock` returns `false`).  Two transactions *within
the same candidate block* may however both spend the same output (see the
counterexample), so an output may end up referenced by more than one admitted
transaction of a single block. -/
theorem spent_utxo_rejected (pow : HV → Nat → Bool) (s : LedgerState) (txId : HV)
    (idx : Nat) (t : Tx)
    (hspent : UTXOSet.hasUnspentUTXO s.utxoSet txId idx = false)
    (href : (⟨txId, idx⟩ : TxInput) ∈ t.inputs) :
    (t.isValid = true →
      (TransactionValidator.validateTransaction s.utxoSet s.mempool t true).isValid = false ∧
        VErr.invalidUTXO txId idx ∈
          (TransactionValidator.validateTransaction s.utxoSet s.mempool t true).errors) ∧
    ∀ b now, t ∈ b.transactions →
      Blockchain.validateBlockTransactions s.utxoSet b = false ∧
      (Blockchain.addBlock pow s b now).1 = false := by
  have hinputs : t.inputs ≠ [] := by
    intro h
    rw [h] at href
    exact absurd href (List.not_mem_nil _)
  have hcant : UTXOSet.canSpendTransaction s.utxoSet t = false := by
    simp only [UTXOSet.canSpendTransaction, List.all_eq_false]
    exact ⟨⟨txId, idx⟩, href, by simp [hspent]⟩
  have hutxoerr : VErr.invalidUTXO txId idx ∈
      TransactionValidator.checkUTXOValidity s.utxoSet t := by
    simp only [TransactionValidator.checkUTXOValidity, List.mem_filterMap]
    exact ⟨⟨txId, idx⟩, href, by simp [hspent]⟩
  constructor
  · intro hstruct
    rw [TransactionValidator.validateTransaction_main_eq s.utxoSet s.mempool t hstruct hinputs]
    have hne : (TransactionValidator.checkUTXOValidity s.utxoSet t).isEmpty = false := by
      cases h : TransactionValidator.checkUTXOValidity s.utxoSet t with
      | nil => rw [h] at hutxoerr; exact absurd hutxoerr (List.not_mem_nil _)
      | cons a l => rfl
    constructor
    · simp [hne]
    · simp only [List.mem_append]
      exact Or.inl (Or.inl (Or.inr hutxoerr))
  · intro b now hmem
    have hvbt : Blockchain.validateBlockTransactions s.utxoSet b = false := by
      simp only [Blockchain.validateBlockTransactions, List.all_eq_false]
      exact ⟨t, hmem, by simp [hcant]⟩
    refine ⟨hvbt, ?_⟩
    rw [Blockchain.addBlock_ite]
    simp [Blockchain.admissionStages, hvbt]

/-- C1 witness: in the reachable state `s2` the coinbase output has been
consumed; a fresh spend of it is rejected by the validator with the
invalid/spent-UTXO error, and any block carrying it is refused. -/
theorem spent_utxo_rejected_witness :
    (({ timestamp := 50, inputs := [⟨cbTx.id, 0⟩],
        outputs := [⟨"dave", 50⟩] } : Tx).isValid = true →
      (TransactionValidator.validateTransaction s2.utxoSet s2.mempool
          { timestamp := 50, inputs := [⟨cbTx.id, 0⟩], outputs := [⟨"dave", 50⟩] }
          true).isValid = false ∧
        VErr.invalidUTXO cbTx.id 0 ∈
          (TransactionValidator.validateTransaction s2.utxoSet s2.mempool
            { timestamp := 50, inputs := [⟨cbTx.id, 0⟩], outputs := [⟨"dave", 50⟩] }
            true).errors) ∧
    ∀ b now,
      ({ timestamp := 50, inputs := [⟨cbTx.id, 0⟩],
         outputs := [⟨"dave", 50⟩] } : Tx) ∈ b.transactions →
      Blockchain.validateBlockTransactions s2.utxoSet b = false ∧
      (Blockchain.addBlock powAll s2 b now).1 = false :=
  spent_utxo_rejected powAll s2 cbTx.id 0 _ (by decide) (by decide)

/-! ## C7 — an intra-block double spend is admitted -/

/-- C7: a concrete ledger state and candidate block with two distinct,
individually well-formed transactions spending the same currently-unspent
output `(cbTx.id, 0)`: all five admission stages pass and `addBlock` returns
`true`.  Stage 5 checks both transactions against the same pre-block UTXO set
(`validateBlockTransactions` and both `canSpendTransaction` calls succeed),
and when the UTXO set is updated the second, conflicting spend is silently
ignored (`spendUTXO` returns `false` and leaves the set unchanged). -/
theorem intra_block_double_spend_admitted :
    UTXOSet.hasUnspentUTXO s1.utxoSet cbTx.id 0 = true ∧
    b2.transactions = [t1, t2] ∧
    t1 ≠ t2 ∧ t1.isValid = true ∧ t2.isValid = true ∧
    (⟨cbTx.id, 0⟩ : TxInput) ∈ t1.inputs ∧
    (⟨cbTx.id, 0⟩ : TxInput) ∈ t2.inputs ∧
    Blockchain.admissionStages powAll s1 b2 40 = true ∧
    Blockchain.addBlock powAll s1 b2 40 = (true, s2) ∧
    Blockchain.validateBlockTransactions s1.utxoSet b2 = true ∧
    UTXOSet.canSpendTransaction s1.utxoSet t1 = true ∧
    UTXOSet.canSpendTransaction s1.utxoSet t2 = true ∧
    (UTXOSet.spendUTXO (Blockchain.applyTxToUTXOSet s1.utxoSet t1) cbTx.id 0 t2.id).1 =
      false ∧
    (UTXOSet.spendUTXO (Blockchain.applyTxToUTXOSet s1.utxoSet t1) cbTx.id 0 t2.id).2 =
      Blockchain.applyTxToUTXOSet s1.utxoSet t1 := by
  decide

/-! ## C6 — tamper detection by validateChain -/

/-- `Blockchain.demonstrateTampering`'s mutation: a new block value with the
timestamp shifted by +1000 ms; the hash is recomputed by construction. -/
def tamperTimestamp (b : Block) : Block := { b with timestamp := b.timestamp + 1000 }

/-- C6 counterexample: mutating a field of the *last* historical block
(index 1 of a 2-block chain, so 0 < i < chain length as the claim allows) and
recomputing its hash need not be detected: in a world where the recomputed
hash still meets the difficulty target, `validateChain()` returns `true` —
there is no later block whose previous-hash link could break, and the block's
own stored hash always equals its recomputation.  (The source's `validateChain`
also short-circuits at the first failure; it produces no per-index diagnosis
flagging every later index.) -/
theorem tamper_detection_claim_false :
    Blockchain.validateChain powAll [gBlock, b1] = true ∧
    0 < 1 ∧ 1 < ([gBlock, b1] : List Block).length ∧
    tamperTimestamp b1 ≠ b1 ∧
    (tamperTimestamp b1).hash ≠ b1.hash ∧
    Blockchain.validateChain powAll ([gBlock, b1].set 1 (tamperTimestamp b1)) = true := by
  decide

/-- C6 (amended): replacing the historical block at index `i` of a linked
chain by any block whose (recomputed) hash differs — as any header-field
mutation does — makes `validateChain()` return `false`, provided a successor
exists (`i + 1 < length`): the successor's stored previous-hash no longer
matches, so the walk fails at or before index `i + 1`.  `validateChain`
reports only the first failure (no full per-index diagnosis), and a
tampered *tip* goes undetected exactly when its recomputed hash still meets
the difficulty target. -/
theorem tamper_detection (pow : HV → Nat → Bool) (chain : List Block) (i : Nat)
    (b' : Block) (_hi : 0 < i) (hsucc : i + 1 < chain.length)
    (hlink : chain[i + 1].previousHash = chain[i].hash)
    (hdiff : b'.hash ≠ chain[i].hash) :
    Blockchain.validateChain pow (chain.set i b') = false := by
  cases hval : Blockchain.validateChain pow (chain.set i b') with
  | false => rfl
  | true =>
    exfalso
    have hchain := Blockchain.validateChain_chain' pow _ hval
    rw [List.chain'_iff_get] at hchain
    have hlen : (chain.set i b').length = chain.length := List.length_set ..
    have hstep := hchain i (by omega)
    simp only [succRel, List.get_eq_getElem] at hstep
    have hib : i < (chain.set i b').length := by omega
    have hib1 : i + 1 < (chain.set i b').length := by omega
    have hgi : (chain.set i b')[i] = b' := List.getElem_set_self hib
    have hgi1 : (chain.set i b')[i + 1] = chain[i + 1] :=
      List.getElem_set_ne (by omega) hib1
    rw [hgi, hgi1] at hstep
    simp only [Block.isValidSuccessor, Bool.and_eq_true, decide_eq_true_eq] at hstep
    exact hdiff (hlink ▸ hstep.1.2).symm

/-- C6 witness: tampering the middle block of a concrete 3-block chain is
detected. -/
theorem tamper_detection_witness :
    Blockchain.validateChain powAll ([gBlock, b1, b2].set 1 (tamperTimestamp b1)) = false :=
  tamper_detection powAll [gBlock, b1, b2] 1 (tamperTimestamp b1) (by decide) (by decide)
    (by decide) (by decide)

/-! ## C10 — the proof-of-work search -/

/-- The block reached after `j` nonce increments (each `incrementNonce`
produces a fresh block value with all other fields unchanged). -/
def nonceShift (j : Nat) (b : Block) : Block := { b with nonce := b.nonce + j }

theorem nonceShift_zero (b : Block) : nonceShift 0 b = b := rfl

theorem nonceShift_succ (j : Nat) (b : Block) :
    nonceShift (j + 1) b = nonceShift j (Block.incrementNonce b) := by
  simp [nonceShift, Block.incrementNonce, Nat.add_assoc, Nat.add_comm 1 j]

/-- C10 helper: if no nonce in the remaining budget satisfies the target, the
loop gives up and returns `none`. -/
theorem mineLoop_none_of_no_hit (pow : HV → Nat → Bool) (stop : Nat → Bool) :
    ∀ (k : Nat) (b : Block), k ≤ 10000000 →
      (∀ j : Nat, k + j ≤ 10000000 →
        Block.hasValidProofOfWork pow (nonceShift j b) = false) →
      ProofOfWork.mineLoop pow stop k b = none := by
  intro k
  induction' hk : 10000001 - k with n ih generalizing k
  · omega
  · intro b hle hmiss
    rw [ProofOfWork.mineLoop]
    have h0 : Block.hasValidProofOfWork pow b = false := by
      have := hmiss 0 (by omega)
      rwa [nonceShift_zero] at this
    rw [h0]
    simp only [Bool.false_eq_true, if_false]
    by_cases hstop : stop (k + 1) = true
    · simp [hstop]
    · simp only [Bool.not_eq_true] at hstop
      rw [hstop]
      simp only [Bool.false_eq_true, if_false]
      by_cases hover : 10000000 < k + 1
      · simp [hover]
      · rw [if_neg hover]
        exact ih (k + 1) (by omega) _ (by omega)
          (fun j hj => by
            have := hmiss (j + 1) (by omega)
            rwa [nonceShift_succ] at this)

/-- C10 helper: with no stop request, the loop returns the first
nonce-incremented candidate that satisfies the target, when one exists within
the budget. -/
theorem mineLoop_first_hit (pow : HV → Nat → Bool) (stop : Nat → Bool)
    (hstop : ∀ k, stop k = false) :
    ∀ (j k : Nat) (b : Block), k + j ≤ 10000000 →
      Block.hasValidProofOfWork pow (nonceShift j b) = true →
      (∀ j' : Nat, j' < j → Block.hasValidProofOfWork pow (nonceShift j' b) = false) →
      ProofOfWork.mineLoop pow stop k b = some (nonceShift j b) := by
  intro j
  induction j with
  | zero =>
    intro k b _ hhit _
    rw [ProofOfWork.mineLoop]
    rw [nonceShift_zero] at hhit ⊢
    simp [hhit]
  | succ j ih =>
    intro k b hle hhit hmiss
    rw [ProofOfWork.mineLoop]
    have h0 : Block.hasValidProofOfWork pow b = false := by
      have := hmiss 0 (by omega)
      rwa [nonceShift_zero] at this
    rw [h0]
    simp only [Bool.false_eq_true, if_false, hstop (k + 1), if_neg (by omega : ¬10000000 < k + 1)]
    rw [nonceShift_succ]
    exact ih (k + 1) _ (by omega) (by rwa [← nonceShift_succ])
      (fun j' hj' => by
        have := hmiss (j' + 1) (by omega)
        rwa [nonceShift_succ] at this)

/-- C10 helper: a stop request at attempt `m`, before any candidate hits the
target, makes the loop return `none`. -/
theorem mineLoop_none_of_stop (pow : HV → Nat → Bool) (stop : Nat → Bool) :
    ∀ (k : Nat) (b : Block) (m : Nat), k < m → m ≤ 10000001 → stop m = true →
      (∀ j : Nat, k + j < m → Block.hasValidProofOfWork pow (nonceShift j b) = false) →
      ProofOfWork.mineLoop pow stop k b = none := by
  intro k
  induction' hk : 10000001 - k with n ih generalizing k
  · intro b m h1 h2 _ _
    omega
  · intro b m h1 h2 hstopm hmiss
    rw [ProofOfWork.mineLoop]
    have h0 : Block.hasValidProofOfWork pow b = false := by
      have := hmiss 0 (by omega)
      rwa [nonceShift_zero] at this
    rw [h0]
    simp only [Bool.false_eq_true, if_false]
    by_cases hstop : stop (k + 1) = true
    · simp [hstop]
    · simp only [Bool.not_eq_true] at hstop
      rw [hstop]
      simp only [Bool.false_eq_true, if_false]
      have hne : k + 1 ≠ m := fun h => by rw [h] at hstop; rw [hstop] at hstopm; cases hstopm
      by_cases hover : 10000000 < k + 1
      · simp [hover]
      · rw [if_neg hover]
        exact ih (k + 1) (by omega) _ m (by omega) h2 hstopm
          (fun j hj => by
            have := hmiss (j + 1) (by omega)
            rwa [nonceShift_succ] at this)

/-- C10: the proof-of-work search always returns.  With no stop request it
returns the first candidate, reached by successive nonce increments, whose
hash satisfies the difficulty target, provided one occurs within the
10,000,000-attempt safety bound; a stop request issued before any hit makes
it return `null`; and when no candidate within the bound satisfies the
target it returns `null` rather than searching forever. -/
theorem mineBlock_spec (pow : HV → Nat → Bool) (stop : Nat → Bool) (b : Block) :
    ((∀ j : Nat, j ≤ 10000000 → Block.hasValidProofOfWork pow (nonceShift j b) = false) →
      ProofOfWork.mineBlock pow stop b = none) ∧
    ((∀ k, stop k = false) → ∀ j : Nat, j ≤ 10000000 →
      Block.hasValidProofOfWork pow (nonceShift j b) = true →
      (∀ j' : Nat, j' < j → Block.hasValidProofOfWork pow (nonceShift j' b) = false) →
      ProofOfWork.mineBlock pow stop b = some (nonceShift j b)) ∧
    (∀ m : Nat, 1 ≤ m → m ≤ 10000001 → stop m = true →
      (∀ j : Nat, j < m → Block.hasValidProofOfWork pow (nonceShift j b) = false) →
      ProofOfWork.mineBlock pow stop b = none) := by
  refine ⟨?_, ?_, ?_⟩
  · intro hmiss
    exact mineLoop_none_of_no_hit pow stop 0 b (by omega) (fun j hj => hmiss j (by omega))
  · intro hstop j hj hhit hmiss
    exact mineLoop_first_hit pow stop hstop j 0 b (by omega) hhit hmiss
  · intro m h1 h2 hstopm hmiss
    exact mineLoop_none_of_stop pow stop 0 b m (by omega) h2 hstopm
      (fun j hjm => hmiss j (by omega))

/-- C10 witness: under a difficulty predicate accepting every hash and with
no stop requests, mining returns the candidate itself (zero increments). -/
theorem mineBlock_spec_witness :
    ProofOfWork.mineBlock powAll (fun _ => false) b1 = some (nonceShift 0 b1) :=
  (mineBlock_spec powAll (fun _ => false) b1).2.1 (fun _ => rfl) 0 (by decide) (by decide)
    (fun j' hj' => absurd hj' (Nat.not_lt_zero j'))

/-! ## C3 — longest-chain reorganization -/

theorem findForkPoint_ge_neg_one : ∀ (cur alt : List Block), -1 ≤ Blockchain.findForkPoint cur alt
  | [], _ => by cases ‹List Block› <;> simp [Blockchain.findForkPoint]
  | _ :: _, [] => by simp [Blockchain.findForkPoint]
  | c :: cs, a :: as => by
    rw [Blockchain.findForkPoint]
    split
    · have := findForkPoint_ge_neg_one cs as
      omega
    · omega

theorem findForkPoint_lt_length : ∀ (cur alt : List Block),
    Blockchain.findForkPoint cur alt < cur.length ∧
      Blockchain.findForkPoint cur alt < alt.length
  | [], _ => by
    cases ‹List Block› <;>
      (simp only [Blockchain.findForkPoint, List.length_cons, List.length_nil]; omega)
  | _ :: _, [] => by
    simp only [Blockchain.findForkPoint, List.length_cons, List.length_nil]
    omega
  | c :: cs, a :: as => by
    rw [Blockchain.findForkPoint]
    split
    · have := findForkPoint_lt_length cs as
      simp only [List.length_cons]
      omega
    · simp only [List.length_cons]
      omega

theorem findForkPoint_nonneg : ∀ (cur alt : List Block), cur ≠ [] → alt ≠ [] →
    (alt.headD default).hash = (cur.headD default).hash →
    0 ≤ Blockchain.findForkPoint cur alt
  | [], _, hne, _, _ => absurd rfl hne
  | _ :: _, [], _, hne, _ => absurd rfl hne
  | c :: cs, a :: as, _, _, hh => by
    rw [Blockchain.findForkPoint, if_pos (by simpa using hh.symm)]
    have := findForkPoint_ge_neg_one cs as
    omega

/-- Along the shared fork prefix the two chains' blocks have equal hashes;
if hash-equality implies block equality there (no SHA-256/Merkle collision),
the prefixes up to the fork point coincide. -/
theorem findForkPoint_take_eq : ∀ (cur alt : List Block),
    (∀ (i : Nat) (h1 : i < cur.length) (h2 : i < alt.length),
      (cur[i]).hash = (alt[i]).hash → cur[i] = alt[i]) →
    ∀ n : Nat, Blockchain.findForkPoint cur alt = (n : Int) →
    cur.take (n + 1) = alt.take (n + 1)
  | [], alt, _, n, h => by
    cases alt <;> simp [Blockchain.findForkPoint] at h
  | _ :: _, [], _, n, h => by
    simp [Blockchain.findForkPoint] at h
  | c :: cs, a :: as, hinj, n, h => by
    rw [Blockchain.findForkPoint] at h
    by_cases hh : c.hash = a.hash
    · rw [if_pos hh] at h
      have hca : c = a := hinj 0 (by simp) (by simp) hh
      cases n with
      | zero => simp [hca]
      | succ m =>
        have h' : Blockchain.findForkPoint cs as = (m : Int) := by omega
        have hrec := findForkPoint_take_eq cs as
          (fun i h1 h2 hh' => by
            have := hinj (i + 1) (by simpa using h1) (by simpa using h2) (by simpa using hh')
            simpa using this) m h'
        simp [List.take_succ_cons, hca, hrec]
    · rw [if_neg hh] at h
      omega

theorem foldl_commitBlock_blocks : ∀ (l : List Block) (st : LedgerState),
    (l.foldl Blockchain.commitBlock st).blocks = st.blocks ++ l
  | [], st => by simp
  | b :: rest, st => by
    rw [List.foldl_cons, foldl_commitBlock_blocks rest]
    simp [Blockchain.commitBlock, Blockchain.removeTransactionsFromPool]

theorem foldl_commitBlock_utxoSet : ∀ (l : List Block) (st : LedgerState),
    (l.foldl Blockchain.commitBlock st).utxoSet =
      l.foldl Blockchain.updateUTXOSet st.utxoSet
  | [], _ => rfl
  | b :: rest, st => by
    rw [List.foldl_cons, foldl_commitBlock_utxoSet rest, List.foldl_cons]
    rfl

/-- On a strictly longer alternative chain that passes
`validateAlternativeChain`, reorganization succeeds and produces exactly the
kept fork prefix extended, block by block, with the alternative suffix. -/
theorem Blockchain.reorg_success_eq (pow : HV → Nat → Bool) (s : LedgerState)
    (alt : List Block) (hne : s.blocks ≠ [])
    (hlen : s.blocks.length < alt.length)
    (hval : Blockchain.validateAlternativeChain pow s.blocks alt = true) :
    Blockchain.considerChainReorganization pow s alt =
      (true,
        (alt.drop ((Blockchain.findForkPoint s.blocks alt).toNat + 1)).foldl
          Blockchain.commitBlock
          { s with
            blocks := s.blocks.take ((Blockchain.findForkPoint s.blocks alt).toNat + 1),
            utxoSet := Blockchain.replayUTXOSet
              (s.blocks.take ((Blockchain.findForkPoint s.blocks alt).toNat + 1)) }) := by
  have haltne : alt ≠ [] := by
    intro h
    rw [h] at hval
    simp [Blockchain.validateAlternativeChain] at hval
  have hhead : (alt.headD default).hash = (s.blocks.headD default).hash := by
    match alt, hval with
    | a0 :: rest, hval =>
      simp only [Blockchain.validateAlternativeChain, Bool.and_eq_true,
        decide_eq_true_eq] at hval
      simpa using hval.1
  have hnn : 0 ≤ Blockchain.findForkPoint s.blocks alt :=
    findForkPoint_nonneg s.blocks alt hne haltne hhead
  have hlt := findForkPoint_lt_length s.blocks alt
  unfold Blockchain.considerChainReorganization
  rw [if_neg (by omega : ¬ alt.length ≤ s.blocks.length), hval]
  simp only [Bool.not_true, Bool.false_eq_true, if_false]
  rw [if_pos (by omega : 0 ≤ Blockchain.findForkPoint s.blocks alt ∧
    Blockchain.findForkPoint s.blocks alt < (s.blocks.length : Int))]

/-- C3 counterexample: reorganization does *not* validate an alternative
chain under the five-stage admission rule: stage 5 (transaction admissibility
against the UTXO set) is never checked, only structure, proof-of-work and
linkage.  A valid-looking block whose transaction spends a nonexistent UTXO
fails stage 5, yet the chain carrying it is adopted. -/
theorem reorg_five_stage_claim_false :
    (Blockchain.considerChainReorganization powAll sG
      [gBlock,
       { index := 1, timestamp := 20,
         transactions := [{ timestamp := 5, inputs := [⟨HV.zeros64, 0⟩],
                            outputs := [⟨"x", 10⟩] }],
         previousHash := gBlock.hash, nonce := 0, difficulty := 1 }]).1 = true ∧
    UTXOSet.canSpendTransaction sG.utxoSet
      { timestamp := 5, inputs := [⟨HV.zeros64, 0⟩], outputs := [⟨"x", 10⟩] } = false ∧
    Blockchain.validateBlockTransactions sG.utxoSet
      { index := 1, timestamp := 20,
        transactions := [{ timestamp := 5, inputs := [⟨HV.zeros64, 0⟩],
                           outputs := [⟨"x", 10⟩] }],
        previousHash := gBlock.hash, nonce := 0, difficulty := 1 } = false := by
  decide

/-- C3 (amended): `considerChainReorganization` adopts the alternative chain
exactly when it is strictly longer and passes `validateAlternativeChain` —
shared genesis hash plus, block by block, admission stages 1-3 only
(structure, proof-of-work, linkage); the wall-clock bound (stage 4) and
transaction admissibility against the UTXO set (stage 5) are not re-checked.
In every other case it returns `false` with the state unchanged.  On
adoption, if hash-equal blocks of the two fork prefixes are actually equal
(no hash collision — true of the real system), the resulting chain is the
alternative chain and the UTXO set is its from-scratch replay. -/
theorem reorg_spec (pow : HV → Nat → Bool) (s : LedgerState) (alt : List Block)
    (hne : s.blocks ≠ []) :
    ((Blockchain.considerChainReorganization pow s alt).1 = true ↔
      s.blocks.length < alt.length ∧
        Blockchain.validateAlternativeChain pow s.blocks alt = true) ∧
    ((Blockchain.considerChainReorganization pow s alt).1 = false →
      (Blockchain.considerChainReorganization pow s alt).2 = s) ∧
    (s.blocks.length < alt.length →
      Blockchain.validateAlternativeChain pow s.blocks alt = true →
      (∀ (i : Nat) (h1 : i < s.blocks.length) (h2 : i < alt.length),
        (s.blocks[i]).hash = (alt[i]).hash → s.blocks[i] = alt[i]) →
      (Blockchain.considerChainReorganization pow s alt).2.blocks = alt ∧
        (Blockchain.considerChainReorganization pow s alt).2.utxoSet =
          Blockchain.replayUTXOSet alt) := by
  refine ⟨?_, ?_, ?_⟩
  · constructor
    · intro htrue
      by_cases h1 : alt.length ≤ s.blocks.length
      · simp [Blockchain.considerChainReorganization, h1] at htrue
      by_cases h2 : Blockchain.validateAlternativeChain pow s.blocks alt = true
      · exact ⟨by omega, h2⟩
      · have h2' : Blockchain.validateAlternativeChain pow s.blocks alt = false :=
          Bool.eq_false_iff.mpr h2
        simp [Blockchain.considerChainReorganization, h1, h2'] at htrue
    · rintro ⟨hlen, hval⟩
      rw [Blockchain.reorg_success_eq pow s alt hne hlen hval]
  · intro hfalse
    by_cases h1 : alt.length ≤ s.blocks.length
    · simp [Blockchain.considerChainReorganization, h1]
    by_cases h2 : Blockchain.validateAlternativeChain pow s.blocks alt = true
    · rw [Blockchain.reorg_success_eq pow s alt hne (by omega) h2] at hfalse
      cases hfalse
    · have h2' : Blockchain.validateAlternativeChain pow s.blocks alt = false :=
        Bool.eq_false_iff.mpr h2
      simp [Blockchain.considerChainReorganization, h1, h2']
  · intro hlen hval hinj
    rw [Blockchain.reorg_success_eq pow s alt hne hlen hval]
    have hnn : 0 ≤ Blockchain.findForkPoint s.blocks alt := by
      have haltne : alt ≠ [] := by
        intro h
        rw [h] at hval
        simp [Blockchain.validateAlternativeChain] at hval
      refine findForkPoint_nonneg s.blocks alt hne haltne ?_
      match alt, hval with
      | a0 :: rest, hval =>
        simp only [Blockchain.validateAlternativeChain, Bool.and_eq_true,
          decide_eq_true_eq] at hval
        simpa using hval.1
    have hfp : Blockchain.findForkPoint s.blocks alt =
        (((Blockchain.findForkPoint s.blocks alt).toNat : Nat) : Int) :=
      (Int.toNat_of_nonneg hnn).symm
    have htake := findForkPoint_take_eq s.blocks alt hinj
      (Blockchain.findForkPoint s.blocks alt).toNat hfp
    constructor
    · rw [foldl_commitBlock_blocks]
      simp only [htake]
      exact List.take_append_drop _ alt
    · rw [foldl_commitBlock_utxoSet]
      simp only [htake]
      show (alt.drop _).foldl Blockchain.updateUTXOSet
          (Blockchain.replayUTXOSet (alt.take _)) = Blockchain.replayUTXOSet alt
      rw [Blockchain.replayUTXOSet, Blockchain.replayUTXOSet, ← List.foldl_append,
        List.take_append_drop]

/-- C3 witness: from a fresh chain, a fully valid 2-block alternative sharing
the genesis is adopted: the chain becomes the alternative and the UTXO set
its replay. -/
theorem reorg_spec_witness :
    (Blockchain.considerChainReorganization powAll sG [gBlock, b1]).2.blocks =
        [gBlock, b1] ∧
      (Blockchain.considerChainReorganization powAll sG [gBlock, b1]).2.utxoSet =
        Blockchain.replayUTXOSet [gBlock, b1] :=
  (reorg_spec powAll sG [gBlock, b1] (by decide)).2.2 (by decide) (by decide)
    (fun i h1 h2 hh => by
      have hi0 : i = 0 := by
        have hl : sG.blocks.length = 1 := by decide
        omega
      subst hi0
      simp [sG, Blockchain.genesisState, gBlock])

/-! ## C5 — the chain-shape invariant of reachable states -/

/-- The specification's chain invariant: nonempty, genesis at index 0, and
pairwise valid succession. -/
def ChainInv (l : List Block) : Prop :=
  l ≠ [] ∧ (∀ b0 ∈ l.head?, b0.index = 0) ∧ List.Chain' succRel l

/-- At the fork point itself the two chains' blocks have equal hashes. -/
theorem findForkPoint_hash_eq : ∀ (cur alt : List Block) (n : Nat),
    Blockchain.findForkPoint cur alt = (n : Int) →
    ∀ (h1 : n < cur.length) (h2 : n < alt.length), (cur[n]).hash = (alt[n]).hash
  | [], alt, n, h, _, _ => by cases alt <;> simp [Blockchain.findForkPoint] at h
  | _ :: _, [], n, h, _, h2 => by simp at h2
  | c :: cs, a :: as, n, h, h1, h2 => by
    rw [Blockchain.findForkPoint] at h
    by_cases hh : c.hash = a.hash
    · rw [if_pos hh] at h
      cases n with
      | zero => simpa using hh
      | succ m =>
        have h' : Blockchain.findForkPoint cs as = (m : Int) := by omega
        simpa using findForkPoint_hash_eq cs as m h' (by simpa using h1) (by simpa using h2)
    · rw [if_neg hh] at h
      omega

/-- Appending a valid successor of the tip preserves the chain invariant. -/
theorem ChainInv.append_block {l : List Block} {b : Block} (hinv : ChainInv l)
    (hsucc : Block.isValidSuccessor b (l.getLastD default) = true) :
    ChainInv (l ++ [b]) := by
  obtain ⟨hne, hhead, hchain⟩ := hinv
  refine ⟨by simp, ?_, ?_⟩
  · intro b0 hb0
    match l, hne with
    | c :: cs, _ =>
      simp only [List.cons_append, List.head?_cons, Option.mem_def,
        Option.some_inj] at hb0
      exact hb0 ▸ hhead c rfl
  · refine List.Chain'.append hchain (List.chain'_singleton b) ?_
    intro x hx y hy
    simp only [List.head?_cons, Option.mem_def, Option.some_inj] at hy
    have hxl : l.getLastD default = x := by
      rw [List.getLastD_eq_getLast?, Option.mem_def.mp hx]
      rfl
    subst hy
    rw [← hxl]
    exact hsucc

/-- `addTransaction` never touches the chain. -/
theorem Blockchain.addTransaction_blocks (s : LedgerState) (t : Tx) :
    (Blockchain.addTransaction s t).2.blocks = s.blocks := by
  simp only [Blockchain.addTransaction]
  split <;> first | rfl | (split <;> rfl)

/-- Every reachable ledger state satisfies the chain invariant. -/
theorem Blockchain.reachable_chainInv (pow : HV → Nat → Bool) (s : LedgerState)
    (h : Blockchain.Reachable pow s) : ChainInv s.blocks := by
  induction h with
  | init msg now =>
    refine ⟨by simp [Blockchain.genesisState], ?_, List.chain'_singleton _⟩
    intro b0 hb0
    simp only [Blockchain.genesisState, List.head?_cons, Option.mem_def,
      Option.some_inj] at hb0
    rw [← hb0]
    rfl
  | addBlockStep s b now hr ih =>
    rw [Blockchain.addBlock_ite]
    by_cases hst : Blockchain.admissionStages pow s b now = true
    · rw [if_pos hst]
      have hsucc : Block.isValidSuccessor b (Blockchain.getLatestBlock s) = true := by
        simp only [Blockchain.admissionStages, Bool.and_eq_true] at hst
        exact hst.1.1.2
      exact ih.append_block hsucc
    · rw [if_neg hst]
      exact ih
  | reorgStep s alt hr ih =>
    by_cases h1 : alt.length ≤ s.blocks.length
    · simp only [Blockchain.considerChainReorganization, if_pos h1]
      exact ih
    by_cases h2 : Blockchain.validateAlternativeChain pow s.blocks alt = true
    · obtain ⟨hne, hhead, hchain⟩ := ih
      rw [Blockchain.reorg_success_eq pow s alt hne (by omega) h2]
      have haltchain : List.Chain' succRel alt := by
        match alt, h2 with
        | a0 :: rest, h2 =>
          simp only [Blockchain.validateAlternativeChain, Bool.and_eq_true] at h2
          exact Blockchain.validateChainFrom_chain' pow a0 rest h2.2
      have haltne : alt ≠ [] := by
        intro hcontra
        rw [hcontra] at h2
        simp [Blockchain.validateAlternativeChain] at h2
      have hnn : 0 ≤ Blockchain.findForkPoint s.blocks alt := by
        refine findForkPoint_nonneg s.blocks alt hne haltne ?_
        match alt, h2 with
        | a0 :: rest, h2 =>
          simp only [Blockchain.validateAlternativeChain, Bool.and_eq_true,
            decide_eq_true_eq] at h2
          simpa using h2.1
      have hlt := findForkPoint_lt_length s.blocks alt
      have hfpn : Blockchain.findForkPoint s.blocks alt =
          (((Blockchain.findForkPoint s.blocks alt).toNat : Nat) : Int) :=
        (Int.toNat_of_nonneg hnn).symm
      have hcurlt : (Blockchain.findForkPoint s.blocks alt).toNat < s.blocks.length := by
        omega
      have haltlt : (Blockchain.findForkPoint s.blocks alt).toNat < alt.length := by
        omega
      have hhash := findForkPoint_hash_eq s.blocks alt
        (Blockchain.findForkPoint s.blocks alt).toNat hfpn hcurlt haltlt
      rw [foldl_commitBlock_blocks]
      refine ⟨?_, ?_, ?_⟩
      · match s.blocks, hne with
        | c :: cs, _ => simp [List.take_succ_cons]
      · intro b0 hb0
        match s.blocks, hne, hhead, hb0 with
        | c :: cs, _, hhead, hb0 =>
          simp only [List.take_succ_cons, List.cons_append, List.head?_cons,
            Option.mem_def, Option.some_inj] at hb0
          exact hb0 ▸ hhead c rfl
      · refine List.Chain'.append (hchain.take _) (haltchain.drop _) ?_
        intro x hx y hy
        rw [List.take_succ, List.getElem?_eq_getElem hcurlt] at hx
        simp only [Option.toList_some, List.getLast?_concat, Option.mem_def,
          Option.some_inj] at hx
        rw [List.head?_drop] at hy
        by_cases hlt2 : (Blockchain.findForkPoint s.blocks alt).toNat + 1 < alt.length
        · rw [List.getElem?_eq_getElem hlt2] at hy
          simp only [Option.mem_def, Option.some_inj] at hy
          have hstep := (List.chain'_iff_get.mp haltchain)
            (Blockchain.findForkPoint s.blocks alt).toNat (by omega)
          simp only [List.get_eq_getElem] at hstep
          subst hx
          subst hy
          show Block.isValidSuccessor _ _ = true
          rw [Block.isValidSuccessor_congr hhash]
          exact hstep
        · rw [List.getElem?_eq_none (by omega)] at hy
          simp at hy
    · have h2' : Blockchain.validateAlternativeChain pow s.blocks alt = false :=
        Bool.eq_false_iff.mpr h2
      simp only [Blockchain.considerChainReorganization, if_neg h1, h2',
        Bool.not_false, if_true, Bool.false_eq_true, if_false]
      exact ih
  | addTxStep s t hr ih =>
    rw [Blockchain.addTransaction_blocks]
    exact ih

/-- C5: in every ledger state reachable from the genesis state through the
ledger operations, the chain starts at index 0 and every later block has a
sequential index, links to its predecessor's hash, and carries a strictly
later timestamp. -/
theorem chain_linkage_invariant (pow : HV → Nat → Bool) (s : LedgerState)
    (h : Blockchain.Reachable pow s) :
    s.blocks ≠ [] ∧
    (∀ (h0 : 0 < s.blocks.length), (s.blocks[0]).index = 0) ∧
    ∀ (i : Nat) (hi : i < s.blocks.length) (hpos : 0 < i),
      (s.blocks[i]).index = (s.blocks[i - 1]).index + 1 ∧
      (s.blocks[i]).previousHash = (s.blocks[i - 1]).hash ∧
      (s.blocks[i - 1]).timestamp < (s.blocks[i]).timestamp := by
  obtain ⟨hne, hhead, hchain⟩ := Blockchain.reachable_chainInv pow s h
  refine ⟨hne, ?_, ?_⟩
  · intro h0
    apply hhead
    rw [List.head?_eq_getElem?, List.getElem?_eq_getElem h0]
    rfl
  · intro i hi hpos
    obtain ⟨j, rfl⟩ : ∃ j, i = j + 1 := ⟨i - 1, by omega⟩
    have hstep := (List.chain'_iff_get.mp hchain) j (by omega)
    simp only [List.get_eq_getElem] at hstep
    have hjb : j < s.blocks.length := by omega
    have hstep' : Block.isValidSuccessor (s.blocks[j + 1]) (s.blocks[j]) =
        true := hstep
    simp only [Block.isValidSuccessor, Bool.and_eq_true, decide_eq_true_eq] at hstep'
    exact ⟨hstep'.1.1, hstep'.1.2, hstep'.2⟩

/-- C5 witness: the invariant holds of the concrete reachable state `s2`
(genesis plus two admitted blocks). -/
theorem chain_linkage_invariant_witness :
    s2.blocks ≠ [] ∧
    (∀ (h0 : 0 < s2.blocks.length), (s2.blocks[0]).index = 0) ∧
    ∀ (i : Nat) (hi : i < s2.blocks.length) (hpos : 0 < i),
      (s2.blocks[i]).index = (s2.blocks[i - 1]).index + 1 ∧
      (s2.blocks[i]).previousHash = (s2.blocks[i - 1]).hash ∧
      (s2.blocks[i - 1]).timestamp < (s2.blocks[i]).timestamp :=
  chain_linkage_invariant powAll s2
    (Blockchain.Reachable.addBlockStep s1 b2 40
      (Blockchain.Reachable.addBlockStep sG b1 20 (Blockchain.Reachable.init none 1)))
